import Mathlib

/-!
Shallow embedding of the `lucidity-route-optimizer` core:

* `app/core/domain/entities.py` — `Location`, `Order`
* `app/core/services/path_generator.py` — `PermutationPathGenerator`
* `app/core/services/cost_calculator.py` — `TimeCostCalculator`
* `app/core/services/route_optimizer.py` — `RouteOptimizer`
* `app/services.py` — legacy `find_best_route`
* `app/infrastructure/distance/haversine_calculator.py` — `HaversineDistance`

Python dicts (string-keyed, insertion ordered, last write wins) are embedded
as association lists with `dictInsert` keeping the original position of an
overwritten key and appending fresh keys.  A failing dict subscript
(`KeyError`) is embedded as `none`; times are embedded as rationals.
The injected `DistanceCalculator` and `TravelTimeEstimator` collaborators are
abstract function parameters `dist` and `timeEst`.
-/

/-- `dict[k] = v` on an insertion-ordered dict: overwriting keeps the key's
original position, a fresh key is appended at the end. -/
def dictInsert {β : Type} (d : List (String × β)) (k : String) (v : β) :
    List (String × β) :=
  if d.any (fun p => p.1 = k) then
    d.map (fun p => if p.1 = k then (k, v) else p)
  else
    d ++ [(k, v)]

/-- `dict.get(k)`: value at the first (= unique) entry for `k`, if any. -/
def dictGet? {β : Type} (d : List (String × β)) (k : String) : Option β :=
  (d.find? (fun p => p.1 = k)).map (fun p => p.2)

/-- `list(dict.keys())` in insertion order. -/
def dictKeys {β : Type} (d : List (String × β)) : List String :=
  d.map (fun p => p.1)

/-- `k in dict`. -/
def dictContains {β : Type} (d : List (String × β)) (k : String) : Bool :=
  d.any (fun p => p.1 = k)

/-- Lookup with a default value (used only to phrase total specifications). -/
def dictGetD {β : Type} (d : List (String × β)) (k : String) (v₀ : β) : β :=
  (dictGet? d k).getD v₀

/-- `entities.Location`: id plus coordinates (coordinate type is a parameter:
the core never inspects coordinates, the haversine model uses `ℝ`). -/
structure Location (α : Type) where
  id : String
  lat : α
  lon : α
deriving DecidableEq

/-- `entities.Order`: restaurant, customer and prep time in minutes. -/
structure Order (α : Type) where
  restaurant : Location α
  customer : Location α
  prep_time_mins : ℚ
deriving DecidableEq

/-- All ways to pick one element out of a list, with the remaining elements in
their original order; in the order `itertools.permutations` picks heads. -/
def selections {α : Type} : List α → List (α × List α)
  | [] => []
  | x :: xs => (x, xs) :: (selections xs).map (fun s => (s.1, x :: s.2))

/-- Fuelled permutation enumeration in `itertools.permutations` order. -/
def permsFuel : Nat → List String → List (List String)
  | 0, _ => [[]]
  | n + 1, l =>
    if l.isEmpty then [[]]
    else (selections l).flatMap (fun s => (permsFuel n s.2).map (fun q => s.1 :: q))

/-- `itertools.permutations(l)`: all permutations of `l`, heads in list order. -/
def permutations (l : List String) : List (List String) :=
  permsFuel l.length l

/-- The `locations` dict built by both `RouteOptimizer.best_route` and
`PermutationPathGenerator.valid_paths`: the source first, then each order's
restaurant and customer, last write wins. -/
def buildLocations (source : Location ℚ) (orders : List (Order ℚ)) :
    List (String × Location ℚ) :=
  orders.foldl
    (fun d o => dictInsert (dictInsert d o.restaurant.id o.restaurant)
      o.customer.id o.customer)
    (dictInsert [] source.id source)

/-- The `prep_times` dict of `RouteOptimizer.best_route`: restaurant id ↦ prep
time, last write wins. -/
def buildPrepTimes (orders : List (Order ℚ)) : List (String × ℚ) :=
  orders.foldl (fun d o => dictInsert d o.restaurant.id o.prep_time_mins) []

/-- The `order_pairs` list: `(restaurant.id, customer.id)` per order. -/
def orderPairs (orders : List (Order ℚ)) : List (String × String) :=
  orders.map (fun o => (o.restaurant.id, o.customer.id))

/-- The `waypoints` list: every location key except the source id. -/
def waypointIds (source : Location ℚ) (orders : List (Order ℚ)) : List String :=
  (dictKeys (buildLocations source orders)).filter (fun lid => lid ≠ source.id)

/-- The dict comprehension `{lid: i for i, lid in enumerate(path)}` of
`PermutationPathGenerator._is_valid` (last occurrence wins on duplicates). -/
def indexOfDict (path : List String) : List (String × Nat) :=
  (path.enum.map (fun e => (e.2, e.1))).foldl (fun d e => dictInsert d e.1 e.2) []

/-- `PermutationPathGenerator._is_valid`: a pair whose restaurant or customer
id is absent from the path is skipped; otherwise the restaurant's index must
not exceed the customer's. -/
def is_valid (path : List String) (order_pairs : List (String × String)) : Bool :=
  order_pairs.all (fun rc =>
    match dictGet? (indexOfDict path) rc.1, dictGet? (indexOfDict path) rc.2 with
    | some ri, some ci => !(ri > ci)
    | _, _ => true)

/-- `PermutationPathGenerator.valid_paths` (materialised): no orders gives no
candidate paths; otherwise every permutation of the waypoints passing
`_is_valid`, in enumeration order. -/
def valid_paths (source : Location ℚ) (orders : List (Order ℚ)) :
    List (List String) :=
  if (orderPairs orders).isEmpty then []
  else (permutations (waypointIds source orders)).filter
    (fun p => is_valid p (orderPairs orders))

/-- `RouteOptimizer._precompute_travel_times`: all-pairs matrix over the
location dict's entries, `0` on the diagonal, `timeEst (dist a b)` elsewhere. -/
def precompute_travel_times (dist : Location ℚ → Location ℚ → ℚ)
    (timeEst : ℚ → ℚ) (locations : List (String × Location ℚ)) :
    List (String × List (String × ℚ)) :=
  locations.map (fun pa =>
    (pa.1, locations.map (fun pb =>
      (pb.1, if pa.1 = pb.1 then 0 else timeEst (dist pa.2 pb.2)))))

/-- `travel_times[a][b]`: two chained dict subscripts, `none` on a `KeyError`. -/
def mat2get? (tt : List (String × List (String × ℚ))) (a b : String) :
    Option ℚ :=
  (dictGet? tt a).bind (fun row => dictGet? row b)

/-- The loop body of `TimeCostCalculator.total_time_mins`, one step per path
stop; `none` embeds an uncaught `KeyError` on a matrix subscript. -/
def totalTimeAux (tt : List (String × List (String × ℚ)))
    (pt : List (String × ℚ)) : String → ℚ → List String → Option ℚ
  | _, t, [] => some t
  | cur, t, next :: rest =>
    match mat2get? tt cur next with
    | none => none
    | some travel =>
      let arrival := t + travel
      let wait :=
        match dictGet? pt next with
        | some prep => max 0 (prep - arrival)
        | none => 0
      totalTimeAux tt pt next (arrival + wait) rest

/-- `TimeCostCalculator.total_time_mins`. -/
def total_time_mins (source : Location ℚ) (path : List String)
    (tt : List (String × List (String × ℚ))) (pt : List (String × ℚ)) :
    Option ℚ :=
  totalTimeAux tt pt source.id 0 path

/-- The selection loop of `RouteOptimizer.best_route`: `acc = none` embeds
`min_time = inf` (any finite cost beats it); a cost's `KeyError` aborts. -/
def bestLoop (κ : List String → Option ℚ) (srcId : String) :
    Option (ℚ × List String) → List (List String) →
    Option (Option (ℚ × List String))
  | acc, [] => some acc
  | acc, p :: rest =>
    match κ p with
    | none => none
    | some t =>
      match acc with
      | none => bestLoop κ srcId (some (t, srcId :: p)) rest
      | some (m, bp) =>
        if t < m then bestLoop κ srcId (some (t, srcId :: p)) rest
        else bestLoop κ srcId (some (m, bp)) rest

/-- `RouteOptimizer.best_route`, with the injected `DistanceCalculator` and
`TravelTimeEstimator` as abstract parameters `dist` and `timeEst`.  Returns
`(best_path, total_time_mins)`; `none` embeds an uncaught exception. -/
def best_route (dist : Location ℚ → Location ℚ → ℚ) (timeEst : ℚ → ℚ)
    (source : Location ℚ) (orders : List (Order ℚ)) :
    Option (List String × ℚ) :=
  let locations := buildLocations source orders
  let prep_times := buildPrepTimes orders
  let travel_times := precompute_travel_times dist timeEst locations
  let valid := valid_paths source orders
  if valid.isEmpty then some ([source.id], 0)
  else
    match bestLoop (fun p => total_time_mins source p travel_times prep_times)
      source.id none valid with
    | some (some (m, bp)) => some (bp, m)
    | _ => none

/-- Loop of legacy `services._is_path_valid`: unlike `_is_valid` it subscripts
`path_indices[r]` / `path_indices[c]` unconditionally, so an absent id raises
(`none`). -/
def legacyIsPathValidAux (idx : List (String × Nat)) :
    List (String × String) → Option Bool
  | [] => some true
  | rc :: rest =>
    match dictGet? idx rc.1, dictGet? idx rc.2 with
    | some ri, some ci =>
      if ri > ci then some false else legacyIsPathValidAux idx rest
    | _, _ => none

/-- Legacy `services._is_path_valid`. -/
def legacy_is_path_valid (path : List String) (pairs : List (String × String)) :
    Option Bool :=
  legacyIsPathValidAux (indexOfDict path) pairs

/-- Legacy valid-path collection loop of `services.find_best_route`. -/
def legacyValidPaths (wps : List String) (pairs : List (String × String)) :
    Option (List (List String)) :=
  (permutations wps).foldlM
    (fun acc p =>
      (legacy_is_path_valid p pairs).map (fun b => if b then acc ++ [p] else acc))
    []

/-- Legacy `services.find_best_route`.  Its `_precompute_travel_times` and
`_calculate_total_time` are character-for-character the same computations as
the new `RouteOptimizer._precompute_travel_times` / `TimeCostCalculator`, so
those embeddings are shared; the path validation and collection differ. -/
def find_best_route (dist : Location ℚ → Location ℚ → ℚ) (timeEst : ℚ → ℚ)
    (source : Location ℚ) (orders : List (Order ℚ)) :
    Option (List String × ℚ) :=
  let locations := buildLocations source orders
  let prep_times := buildPrepTimes orders
  let travel_times := precompute_travel_times dist timeEst locations
  let wps := (dictKeys locations).filter (fun lid => lid ≠ source.id)
  match legacyValidPaths wps (orderPairs orders) with
  | none => none
  | some valid =>
    if valid.isEmpty then some ([source.id], 0)
    else
      match bestLoop (fun p => total_time_mins source p travel_times prep_times)
        source.id none valid with
      | some (some (m, bp)) => some (bp, m)
      | _ => none

/-- Comparison definition for the CostEvaluator claim, written from the spec's
words (§4.4): a total fold with `arrival = current_time + matrix[cur][next]`,
`wait = max(0, prep[next] - arrival)` exactly when `next` has a prep entry and
`wait = 0` otherwise, returning the final `current_time`. -/
def specTotalTime (tt : List (String × List (String × ℚ)))
    (pt : List (String × ℚ)) : String → ℚ → List String → ℚ
  | _, t, [] => t
  | cur, t, next :: rest =>
    let arrival := t + dictGetD (dictGetD tt cur []) next 0
    let wait :=
      match dictGet? pt next with
      | some prep => max 0 (prep - arrival)
      | none => 0
    specTotalTime tt pt next (arrival + wait) rest

/-- A travel-time matrix is square when every row holds every key of the
matrix (the shape `_precompute_travel_times` always produces). -/
def squareMatrix (tt : List (String × List (String × ℚ))) : Prop :=
  ∀ e ∈ tt, ∀ b ∈ dictKeys tt, b ∈ dictKeys e.2

/-- `math.radians`. -/
noncomputable def radians (x : ℝ) : ℝ := x * (Real.pi / 180)

/-- `math.atan2 y x` (two-argument arctangent, C semantics). -/
noncomputable def atan2 (y x : ℝ) : ℝ :=
  if 0 < x then Real.arctan (y / x)
  else if x < 0 then
    (if 0 ≤ y then Real.arctan (y / x) + Real.pi
     else Real.arctan (y / x) - Real.pi)
  else if 0 < y then Real.pi / 2
  else if y < 0 then -(Real.pi / 2)
  else 0

/-- Default earth radius of `HaversineDistance` (km). -/
noncomputable def earthRadiusKm : ℝ := 6371

/-- The haversine intermediate `h` of `HaversineDistance.distance_km`:
`sin²(Δlat/2) + cos(lat1)·cos(lat2)·sin²(Δlon/2)` over radians. -/
noncomputable def haverH (a b : Location ℝ) : ℝ :=
  Real.sin ((radians b.lat - radians a.lat) / 2) ^ 2 +
    Real.cos (radians a.lat) * Real.cos (radians b.lat) *
      Real.sin ((radians b.lon - radians a.lon) / 2) ^ 2

/-- `HaversineDistance.distance_km` with earth radius `R`, over a real-valued
embedding of the floating-point arithmetic:
`c = 2·atan2(√h, √(1-h))`, `distance = R·c`. -/
noncomputable def distance_km (R : ℝ) (a b : Location ℝ) : ℝ :=
  R * (2 * atan2 (Real.sqrt (haverH a b)) (Real.sqrt (1 - haverH a b)))

/-- The insertion events `best_route` performs on its `locations` dict, in
program order: the source first, then each order's restaurant and customer. -/
def locationEvents (source : Location ℚ) (orders : List (Order ℚ)) :
    List (String × Location ℚ) :=
  (source.id, source) ::
    orders.flatMap (fun o =>
      [(o.restaurant.id, o.restaurant), (o.customer.id, o.customer)])

/-- The selection loop once every cost is known to be defined: pure argmin
with strict improvement, first minimum wins. -/
def pureLoop (g : List String → ℚ) (srcId : String) :
    ℚ × List String → List (List String) → ℚ × List String
  | acc, [] => acc
  | (m, bp), p :: rest =>
    if g p < m then pureLoop g srcId (g p, srcId :: p) rest
    else pureLoop g srcId (m, bp) rest

/-- Concrete data for instantiating the general theorems. -/
def exS : Location ℚ := ⟨"S", 0, 0⟩

def exR : Location ℚ := ⟨"R", 1, 1⟩

def exC : Location ℚ := ⟨"C", 2, 2⟩

def exOrder : Order ℚ := ⟨exR, exC, 5⟩

/-- An order whose customer id collides with the source id. -/
def exOrderBad : Order ℚ := ⟨exR, ⟨"S", 3, 3⟩, 0⟩

/-- A second order reusing the restaurant id of `exOrder`. -/
def exOrder2 : Order ℚ := ⟨⟨"R", 9, 9⟩, ⟨"D", 4, 4⟩, 7⟩

def exDist : Location ℚ → Location ℚ → ℚ := fun _ _ => 1

def exTimeEst : ℚ → ℚ := fun x => 3 * x

def exTT : List (String × List (String × ℚ)) :=
  [("S", [("S", 0), ("R", 5)]), ("R", [("S", 5), ("R", 0)])]

def exPT : List (String × ℚ) := [("R", 7)]

theorem dictContains_iff {β : Type} (d : List (String × β)) (k : String) :
    dictContains d k = true ↔ k ∈ dictKeys d := by
  simp only [dictContains, dictKeys, List.any_eq_true, decide_eq_true_eq,
    List.mem_map]

theorem dictGet?_insert_self {β : Type} (d : List (String × β)) (k : String)
    (v : β) : dictGet? (dictInsert d k v) k = some v := by
  unfold dictInsert dictGet?
  by_cases h : d.any (fun p => p.1 = k) = true
  · simp only [h, if_true]
    rw [List.find?_map]
    have hpred : ∀ p : String × β,
        ((fun p : String × β => decide (p.1 = k)) ∘
          (fun p : String × β => if p.1 = k then (k, v) else p)) p =
        decide (p.1 = k) := by
      intro p
      by_cases hp : p.1 = k <;> simp [hp]
    rw [funext hpred]
    have hex : (List.find? (fun p : String × β => decide (p.1 = k)) d).isSome := by
      rw [List.find?_isSome]
      simpa [List.any_eq_true] using h
    obtain ⟨p₀, hp₀⟩ := Option.isSome_iff_exists.mp hex
    have hk₀ : p₀.1 = k := by simpa using List.find?_some hp₀
    simp [hp₀, hk₀]
  · rw [if_neg h]
    have hnone : List.find? (fun p : String × β => decide (p.1 = k)) d = none := by
      rw [List.find?_eq_none]
      intro p hp
      simp only [decide_eq_true_eq]
      intro hk
      apply h
      rw [List.any_eq_true]
      exact ⟨p, hp, by simp [hk]⟩
    rw [List.find?_append, hnone]
    simp

theorem dictGet?_insert_ne {β : Type} (d : List (String × β)) (k k' : String)
    (v : β) (hne : k' ≠ k) :
    dictGet? (dictInsert d k v) k' = dictGet? d k' := by
  unfold dictInsert dictGet?
  by_cases h : d.any (fun p => p.1 = k) = true
  · simp only [h, if_true]
    rw [List.find?_map]
    have hpred : ∀ p : String × β,
        ((fun p : String × β => decide (p.1 = k')) ∘
          (fun p : String × β => if p.1 = k then (k, v) else p)) p =
        decide (p.1 = k') := by
      intro p
      by_cases hp : p.1 = k
      · simp [hp, Ne.symm hne, hp ▸ (Ne.symm hne)]
      · simp [hp]
    rw [funext hpred]
    cases hfind : List.find? (fun p : String × β => decide (p.1 = k')) d with
    | none => simp
    | some p₀ =>
      have hk₀ : p₀.1 = k' := by simpa using List.find?_some hfind
      have : ¬ p₀.1 = k := by rw [hk₀]; exact hne
      simp [this]
  · rw [if_neg h]
    rw [List.find?_append]
    have : List.find? (fun p : String × β => decide (p.1 = k')) [(k, v)] = none := by
      simp [List.find?, Ne.symm hne]
    rw [this, Option.or_none]

theorem dictKeys_map_overwrite {β : Type} (d : List (String × β)) (k : String)
    (v : β) :
    dictKeys (d.map (fun p => if p.1 = k then (k, v) else p)) = dictKeys d := by
  unfold dictKeys
  rw [List.map_map]
  congr 1
  funext p
  by_cases hp : p.1 = k <;> simp [hp]

theorem dictKeys_insert {β : Type} (d : List (String × β)) (k : String) (v : β) :
    dictKeys (dictInsert d k v) =
      if k ∈ dictKeys d then dictKeys d else dictKeys d ++ [k] := by
  unfold dictInsert
  by_cases h : k ∈ dictKeys d
  · have hany : d.any (fun p => p.1 = k) = true := by
      have := (dictContains_iff d k).mpr h
      simpa [dictContains] using this
    simp only [hany, if_true, h, dictKeys_map_overwrite]
  · have hany : ¬ d.any (fun p => p.1 = k) = true := by
      intro hc
      exact h ((dictContains_iff d k).mp (by simpa [dictContains] using hc))
    simp only [hany, if_false, h]
    unfold dictKeys
    simp

theorem mem_dictKeys_insert {β : Type} (d : List (String × β)) (k x : String)
    (v : β) :
    x ∈ dictKeys (dictInsert d k v) ↔ x = k ∨ x ∈ dictKeys d := by
  rw [dictKeys_insert]
  by_cases h : k ∈ dictKeys d
  · simp only [h, if_true]
    constructor
    · exact Or.inr
    · rintro (rfl | hx)
      exacts [h, hx]
  · simp only [h, if_false, List.mem_append, List.mem_singleton]
    tauto

theorem dictKeys_insert_nodup {β : Type} (d : List (String × β)) (k : String)
    (v : β) (hd : (dictKeys d).Nodup) : (dictKeys (dictInsert d k v)).Nodup := by
  rw [dictKeys_insert]
  by_cases h : k ∈ dictKeys d
  · simpa [h] using hd
  · simp only [h, if_false]
    rw [List.nodup_append]
    refine ⟨hd, List.nodup_singleton k, ?_⟩
    intro x hx hx'
    simp only [List.mem_singleton] at hx'
    exact h (hx' ▸ hx)

theorem dictGet?_isSome_iff {β : Type} (d : List (String × β)) (x : String) :
    (dictGet? d x).isSome = true ↔ x ∈ dictKeys d := by
  unfold dictGet? dictKeys
  rw [← Option.map_eq_map, Option.isSome_map, List.find?_isSome]
  simp only [decide_eq_true_eq, List.mem_map]

theorem dictGet?_eq_some_of_mem {β : Type} (d : List (String × β)) (x : String)
    (h : x ∈ dictKeys d) : ∃ v, dictGet? d x = some v := by
  have := (dictGet?_isSome_iff d x).mpr h
  exact Option.isSome_iff_exists.mp this

theorem dictGet?_mem {β : Type} {d : List (String × β)} {x : String} {v : β}
    (h : dictGet? d x = some v) : (x, v) ∈ d := by
  unfold dictGet? at h
  cases hfind : List.find? (fun p => decide (p.1 = x)) d with
  | none => rw [hfind] at h; simp at h
  | some p₀ =>
    rw [hfind] at h
    have h2 : p₀.2 = v := by simpa using h
    have hk : p₀.1 = x := by simpa using List.find?_some hfind
    have hm : p₀ ∈ d := List.mem_of_find?_eq_some hfind
    have hp : p₀ = (x, v) := by
      obtain ⟨a, b⟩ := p₀
      rw [show a = x from hk, show b = v from h2]
    exact hp ▸ hm


theorem dictGet?_foldl_insert {β : Type} (evs : List (String × β)) :
    ∀ (d : List (String × β)) (x : String),
      dictGet? (evs.foldl (fun acc e => dictInsert acc e.1 e.2) d) x =
        match (evs.filter (fun e => e.1 = x)).getLast? with
        | some e => some e.2
        | none => dictGet? d x := by
  induction evs with
  | nil => intro d x; simp
  | cons e evs ih =>
    intro d x
    rw [List.foldl_cons, ih]
    by_cases he : e.1 = x
    · rw [List.filter_cons_of_pos (by simp [he])]
      rw [List.getLast?_cons]
      cases hf : (evs.filter (fun e => e.1 = x)).getLast? with
      | some e' => simp [hf]
      | none =>
        simp only [hf, Option.getD_none]
        rw [← he, dictGet?_insert_self]
    · rw [List.filter_cons_of_neg (by simp [he])]
      cases hf : (evs.filter (fun e => e.1 = x)).getLast? with
      | some e' => simp [hf]
      | none =>
        simp only [hf]
        exact dictGet?_insert_ne d e.1 x e.2 (fun hx => he hx.symm)

theorem mem_dictKeys_foldl {β : Type} (evs : List (String × β)) :
    ∀ (d : List (String × β)) (x : String),
      x ∈ dictKeys (evs.foldl (fun acc e => dictInsert acc e.1 e.2) d) ↔
        x ∈ dictKeys d ∨ x ∈ evs.map (fun e => e.1) := by
  induction evs with
  | nil => intro d x; simp
  | cons e evs ih =>
    intro d x
    rw [List.foldl_cons, ih, mem_dictKeys_insert]
    simp only [List.map_cons, List.mem_cons]
    tauto

theorem dictKeys_foldl_nodup {β : Type} (evs : List (String × β)) :
    ∀ (d : List (String × β)), (dictKeys d).Nodup →
      (dictKeys (evs.foldl (fun acc e => dictInsert acc e.1 e.2) d)).Nodup := by
  induction evs with
  | nil => intro d hd; exact hd
  | cons e evs ih =>
    intro d hd
    rw [List.foldl_cons]
    exact ih _ (dictKeys_insert_nodup d e.1 e.2 hd)

theorem buildLocations_eq_foldl (source : Location ℚ) (orders : List (Order ℚ)) :
    buildLocations source orders =
      (locationEvents source orders).foldl
        (fun acc e => dictInsert acc e.1 e.2) [] := by
  unfold buildLocations locationEvents
  rw [List.foldl_cons]
  have h : ∀ (os : List (Order ℚ)) (d : List (String × Location ℚ)),
      os.foldl (fun d o => dictInsert (dictInsert d o.restaurant.id o.restaurant)
        o.customer.id o.customer) d =
      (os.flatMap (fun o =>
        [(o.restaurant.id, o.restaurant), (o.customer.id, o.customer)])).foldl
        (fun acc e => dictInsert acc e.1 e.2) d := by
    intro os
    induction os with
    | nil => intro d; rfl
    | cons o os ih =>
      intro d
      rw [List.foldl_cons, List.flatMap_cons, List.foldl_append, ih]
      rfl
  exact h orders _

theorem buildPrepTimes_eq_foldl (orders : List (Order ℚ)) :
    buildPrepTimes orders =
      (orders.map (fun o => (o.restaurant.id, o.prep_time_mins))).foldl
        (fun acc e => dictInsert acc e.1 e.2) [] := by
  unfold buildPrepTimes
  rw [List.foldl_map]

theorem mem_dictKeys_buildLocations (source : Location ℚ)
    (orders : List (Order ℚ)) (x : String) :
    x ∈ dictKeys (buildLocations source orders) ↔
      x = source.id ∨ ∃ o ∈ orders, x = o.restaurant.id ∨ x = o.customer.id := by
  rw [buildLocations_eq_foldl, mem_dictKeys_foldl]
  unfold locationEvents
  simp only [dictKeys, List.map_nil, List.not_mem_nil, List.map_cons,
    List.mem_cons, List.mem_map, List.mem_flatMap, false_or]
  constructor
  · rintro (h | ⟨e, ⟨o, ho, he⟩, hx⟩)
    · exact Or.inl h
    · refine Or.inr ⟨o, ho, ?_⟩
      have he' : e = (o.restaurant.id, o.restaurant) ∨
          e = (o.customer.id, o.customer) := by simpa using he
      rcases he' with rfl | rfl
      · exact Or.inl hx.symm
      · exact Or.inr hx.symm
  · rintro (h | ⟨o, ho, h | h⟩)
    · exact Or.inl h
    · exact Or.inr ⟨(o.restaurant.id, o.restaurant), ⟨o, ho, by simp⟩, h.symm⟩
    · exact Or.inr ⟨(o.customer.id, o.customer), ⟨o, ho, by simp⟩, h.symm⟩

theorem dictKeys_buildLocations_nodup (source : Location ℚ)
    (orders : List (Order ℚ)) : (dictKeys (buildLocations source orders)).Nodup := by
  rw [buildLocations_eq_foldl]
  exact dictKeys_foldl_nodup _ [] (by simp [dictKeys])

theorem mem_dictKeys_buildPrepTimes (orders : List (Order ℚ)) (x : String) :
    x ∈ dictKeys (buildPrepTimes orders) ↔
      ∃ o ∈ orders, x = o.restaurant.id := by
  rw [buildPrepTimes_eq_foldl, mem_dictKeys_foldl]
  simp only [dictKeys, List.map_nil, List.not_mem_nil, List.map_map,
    List.mem_map, false_or, Function.comp]
  constructor
  · rintro ⟨o, ho, hx⟩
    exact ⟨o, ho, hx.symm⟩
  · rintro ⟨o, ho, hx⟩
    exact ⟨o, ho, hx.symm⟩

theorem selections_perm {α : Type} :
    ∀ (l : List α), ∀ s ∈ selections l, (s.1 :: s.2).Perm l := by
  intro l
  induction l with
  | nil => intro s hs; simp [selections] at hs
  | cons x xs ih =>
    intro s hs
    simp only [selections, List.mem_cons, List.mem_map] at hs
    rcases hs with rfl | ⟨s', hs', rfl⟩
    · exact List.Perm.refl _
    · exact List.Perm.trans (List.Perm.swap x s'.1 s'.2)
        (List.Perm.cons x (ih s' hs'))

theorem selections_length {α : Type} (l : List α) (s : α × List α)
    (hs : s ∈ selections l) : s.2.length + 1 = l.length := by
  have := (selections_perm l s hs).length_eq
  simpa using this

theorem permsFuel_perm :
    ∀ (n : Nat) (l : List String), l.length ≤ n →
      ∀ p ∈ permsFuel n l, p.Perm l := by
  intro n
  induction n with
  | zero =>
    intro l hl p hp
    have : l = [] := List.length_eq_zero.mp (Nat.le_zero.mp hl)
    subst this
    simp only [permsFuel, List.mem_singleton] at hp
    simp [hp]
  | succ n ih =>
    intro l hl p hp
    by_cases hemp : l.isEmpty
    · have : l = [] := List.isEmpty_iff.mp hemp
      subst this
      simp only [permsFuel, List.isEmpty_nil, if_true, List.mem_singleton] at hp
      simp [hp]
    · have hpm : p ∈ (if l.isEmpty then [[]]
          else (selections l).flatMap
            (fun s => (permsFuel n s.2).map (fun q => s.1 :: q))) := hp
      rw [if_neg hemp] at hpm
      have hp' : ∃ s ∈ selections l, ∃ q ∈ permsFuel n s.2, s.1 :: q = p := by
        simpa [List.mem_flatMap, List.mem_map] using hpm
      obtain ⟨s, hs, q, hq, rfl⟩ := hp'
      have hlen : s.2.length ≤ n := by
        have := selections_length l s hs
        omega
      have hperm : q.Perm s.2 := ih s.2 hlen q hq
      exact List.Perm.trans (List.Perm.cons s.1 hperm) (selections_perm l s hs)

theorem permutations_perm (l : List String) (p : List String)
    (hp : p ∈ permutations l) : p.Perm l :=
  permsFuel_perm l.length l (Nat.le_refl _) p hp

theorem mem_valid_paths {source : Location ℚ} {orders : List (Order ℚ)}
    {p : List String} (hp : p ∈ valid_paths source orders) :
    p.Perm (waypointIds source orders) ∧
      is_valid p (orderPairs orders) = true := by
  unfold valid_paths at hp
  by_cases h : (orderPairs orders).isEmpty
  · rw [if_pos h] at hp
    simp at hp
  · rw [if_neg h] at hp
    rw [List.mem_filter] at hp
    exact ⟨permutations_perm _ p hp.1, hp.2⟩

theorem waypointIds_nodup (source : Location ℚ) (orders : List (Order ℚ)) :
    (waypointIds source orders).Nodup :=
  (dictKeys_buildLocations_nodup source orders).filter _

theorem mem_waypointIds {source : Location ℚ} {orders : List (Order ℚ)}
    {x : String} :
    x ∈ waypointIds source orders ↔
      x ∈ dictKeys (buildLocations source orders) ∧ x ≠ source.id := by
  unfold waypointIds
  rw [List.mem_filter]
  simp

theorem indexOfDict_get? (path : List String) (x : String) :
    dictGet? (indexOfDict path) x =
      match ((path.enum.map (fun e => (e.2, e.1))).filter
        (fun e => e.1 = x)).getLast? with
      | some e => some e.2
      | none => none := by
  unfold indexOfDict
  rw [dictGet?_foldl_insert]
  cases ((path.enum.map (fun e => (e.2, e.1))).filter
      (fun e => e.1 = x)).getLast? with
  | some e => rfl
  | none => rfl

theorem enumFrom_filter_nodup (x : String) :
    ∀ (path : List String), path.Nodup → ∀ (n : Nat),
      (List.enumFrom n path).filter (fun e => e.2 = x) =
        if x ∈ path then [(n + path.indexOf x, x)] else [] := by
  intro path
  induction path with
  | nil => intro _ n; simp
  | cons y ys ih =>
    intro hnd n
    rw [List.enumFrom_cons]
    by_cases hy : y = x
    · subst hy
      rw [List.filter_cons_of_pos (by simp)]
      have hx : y ∉ ys := (List.nodup_cons.mp hnd).1
      rw [ih (List.nodup_cons.mp hnd).2 (n + 1)]
      simp [hx, List.indexOf_cons_self]
    · rw [List.filter_cons_of_neg (by simp [hy])]
      rw [ih (List.nodup_cons.mp hnd).2 (n + 1)]
      by_cases hmem : x ∈ ys
      · have hmem' : x ∈ y :: ys := List.mem_cons_of_mem y hmem
        rw [if_pos hmem, if_pos hmem', List.indexOf_cons_ne ys hy]
        have harith : n + 1 + List.indexOf x ys =
            n + (List.indexOf x ys).succ := by omega
        rw [harith]
      · have hmem' : ¬ x ∈ y :: ys := by
          intro hx
          rcases List.mem_cons.mp hx with h | h
          · exact hy h.symm
          · exact hmem h
        rw [if_neg hmem, if_neg hmem']

theorem indexOfDict_get?_nodup (path : List String) (hnd : path.Nodup)
    (x : String) :
    dictGet? (indexOfDict path) x =
      if x ∈ path then some (path.indexOf x) else none := by
  rw [indexOfDict_get?]
  have hfm : (path.enum.map (fun e => (e.2, e.1))).filter (fun e => e.1 = x) =
      (path.enum.filter (fun e => e.2 = x)).map (fun e => (e.2, e.1)) := by
    rw [List.filter_map]
    congr 1
  have henum : path.enum.filter (fun e => e.2 = x) =
      if x ∈ path then [(0 + path.indexOf x, x)] else [] := by
    have := enumFrom_filter_nodup x path hnd 0
    simpa [List.enum] using this
  rw [hfm, henum]
  by_cases hmem : x ∈ path
  · simp [hmem]
  · simp [hmem]

theorem is_valid_spec {path : List String} {pairs : List (String × String)}
    (hval : is_valid path pairs = true) (hnd : path.Nodup)
    {r c : String} (hrc : (r, c) ∈ pairs) (hr : r ∈ path) (hc : c ∈ path) :
    path.indexOf r ≤ path.indexOf c := by
  unfold is_valid at hval
  rw [List.all_eq_true] at hval
  have h := hval (r, c) hrc
  rw [indexOfDict_get?_nodup path hnd r, indexOfDict_get?_nodup path hnd c] at h
  simp only [hr, hc, if_true] at h
  simpa using h

theorem dictKeys_precompute (dist : Location ℚ → Location ℚ → ℚ)
    (timeEst : ℚ → ℚ) (locs : List (String × Location ℚ)) :
    dictKeys (precompute_travel_times dist timeEst locs) = dictKeys locs := by
  unfold precompute_travel_times dictKeys
  rw [List.map_map]
  rfl

theorem dictGet?_precompute (dist : Location ℚ → Location ℚ → ℚ)
    (timeEst : ℚ → ℚ) (locs : List (String × Location ℚ)) (a : String) :
    dictGet? (precompute_travel_times dist timeEst locs) a =
      (locs.find? (fun p => p.1 = a)).map (fun pa =>
        locs.map (fun pb =>
          (pb.1, if pa.1 = pb.1 then 0 else timeEst (dist pa.2 pb.2)))) := by
  unfold precompute_travel_times dictGet?
  rw [List.find?_map]
  have hpred : ((fun p : String × List (String × ℚ) => decide (p.1 = a)) ∘
      (fun pa : String × Location ℚ =>
        (pa.1, locs.map (fun pb =>
          (pb.1, if pa.1 = pb.1 then 0 else timeEst (dist pa.2 pb.2)))))) =
      (fun p : String × Location ℚ => decide (p.1 = a)) := rfl
  rw [hpred, Option.map_map]
  rfl

theorem mat2get?_precompute (dist : Location ℚ → Location ℚ → ℚ)
    (timeEst : ℚ → ℚ) (locs : List (String × Location ℚ)) (a b : String) :
    mat2get? (precompute_travel_times dist timeEst locs) a b =
      match locs.find? (fun p => p.1 = a), locs.find? (fun p => p.1 = b) with
      | some pa, some pb =>
        some (if pa.1 = pb.1 then 0 else timeEst (dist pa.2 pb.2))
      | _, _ => none := by
  unfold mat2get?
  rw [dictGet?_precompute]
  cases hfa : locs.find? (fun p => p.1 = a) with
  | none => rfl
  | some pa =>
    simp only [Option.map_some', Option.some_bind]
    unfold dictGet?
    rw [List.find?_map]
    have hpred : ((fun p : String × ℚ => decide (p.1 = b)) ∘
        (fun pb : String × Location ℚ =>
          (pb.1, if pa.1 = pb.1 then 0 else timeEst (dist pa.2 pb.2)))) =
        (fun p : String × Location ℚ => decide (p.1 = b)) := rfl
    rw [hpred, Option.map_map]
    cases hfb : locs.find? (fun p => p.1 = b) with
    | none => rfl
    | some pb => rfl

theorem find?_key_of_mem {β : Type} (d : List (String × β)) (a : String)
    (h : a ∈ dictKeys d) :
    ∃ pa, d.find? (fun p => p.1 = a) = some pa ∧ pa.1 = a := by
  have hex : (d.find? (fun p => decide (p.1 = a))).isSome := by
    rw [List.find?_isSome]
    unfold dictKeys at h
    rw [List.mem_map] at h
    obtain ⟨p, hp, hk⟩ := h
    exact ⟨p, hp, by simp [hk]⟩
  obtain ⟨pa, hpa⟩ := Option.isSome_iff_exists.mp hex
  exact ⟨pa, hpa, by simpa using List.find?_some hpa⟩

theorem mat2get?_diag (dist : Location ℚ → Location ℚ → ℚ) (timeEst : ℚ → ℚ)
    (locs : List (String × Location ℚ)) (a : String) (h : a ∈ dictKeys locs) :
    mat2get? (precompute_travel_times dist timeEst locs) a a = some 0 := by
  rw [mat2get?_precompute]
  obtain ⟨pa, hpa, hk⟩ := find?_key_of_mem locs a h
  rw [hpa]
  simp

theorem mat2get?_ne (dist : Location ℚ → Location ℚ → ℚ) (timeEst : ℚ → ℚ)
    (locs : List (String × Location ℚ)) (a b : String) (la lb : Location ℚ)
    (hab : a ≠ b) (ha : dictGet? locs a = some la) (hb : dictGet? locs b = some lb) :
    mat2get? (precompute_travel_times dist timeEst locs) a b =
      some (timeEst (dist la lb)) := by
  rw [mat2get?_precompute]
  unfold dictGet? at ha hb
  cases hfa : locs.find? (fun p => p.1 = a) with
  | none => rw [hfa] at ha; simp at ha
  | some pa =>
    cases hfb : locs.find? (fun p => p.1 = b) with
    | none => rw [hfb] at hb; simp at hb
    | some pb =>
      rw [hfa] at ha
      rw [hfb] at hb
      have hka : pa.1 = a := by simpa using List.find?_some hfa
      have hkb : pb.1 = b := by simpa using List.find?_some hfb
      have hva : pa.2 = la := by simpa using ha
      have hvb : pb.2 = lb := by simpa using hb
      have hne : ¬ pa.1 = pb.1 := by rw [hka, hkb]; exact hab
      simp [hne, hva, hvb]

theorem squareMatrix_precompute (dist : Location ℚ → Location ℚ → ℚ)
    (timeEst : ℚ → ℚ) (locs : List (String × Location ℚ)) :
    squareMatrix (precompute_travel_times dist timeEst locs) := by
  intro e he b hb
  rw [dictKeys_precompute] at hb
  unfold precompute_travel_times at he
  rw [List.mem_map] at he
  obtain ⟨pa, _, rfl⟩ := he
  unfold dictKeys
  rw [List.map_map]
  unfold dictKeys at hb
  exact hb

theorem totalTimeAux_eq_spec (tt : List (String × List (String × ℚ)))
    (pt : List (String × ℚ)) (hsq : squareMatrix tt) :
    ∀ (path : List String) (cur : String) (t : ℚ), cur ∈ dictKeys tt →
      (∀ x ∈ path, x ∈ dictKeys tt) →
      totalTimeAux tt pt cur t path = some (specTotalTime tt pt cur t path) := by
  intro path
  induction path with
  | nil => intro cur t _ _; rfl
  | cons next rest ih =>
    intro cur t hcur hpath
    obtain ⟨row, hrow⟩ := dictGet?_eq_some_of_mem tt cur hcur
    have hrowmem : (cur, row) ∈ tt := dictGet?_mem hrow
    have hnextkeys : next ∈ dictKeys row := by
      have := hsq (cur, row) hrowmem next (hpath next (List.mem_cons_self _ _))
      exact this
    obtain ⟨travel, htravel⟩ := dictGet?_eq_some_of_mem row next hnextkeys
    have hmat : mat2get? tt cur next = some travel := by
      unfold mat2get?
      rw [hrow]
      simp only [Option.some_bind]
      exact htravel
    have hmatD : dictGetD (dictGetD tt cur []) next 0 = travel := by
      unfold dictGetD
      rw [hrow]
      simp only [Option.getD_some]
      rw [htravel]
      rfl
    show totalTimeAux tt pt cur t (next :: rest) =
      some (specTotalTime tt pt cur t (next :: rest))
    rw [totalTimeAux, specTotalTime, hmat, hmatD]
    exact ih next _ (hpath next (List.mem_cons_self _ _))
      (fun x hx => hpath x (List.mem_cons_of_mem _ hx))


theorem mem_of_getElem? {α : Type} {l : List α} {i : Nat} {a : α}
    (h : l[i]? = some a) : a ∈ l := by
  obtain ⟨hlt, rfl⟩ := List.getElem?_eq_some.mp h
  exact List.getElem_mem hlt

theorem bestLoop_eq_pureLoop (κ : List String → Option ℚ)
    (g : List String → ℚ) (src : String) :
    ∀ (l : List (List String)), (∀ p ∈ l, κ p = some (g p)) →
      ∀ (m0 : ℚ) (bp0 : List String),
        bestLoop κ src (some (m0, bp0)) l =
          some (some (pureLoop g src (m0, bp0) l)) := by
  intro l
  induction l with
  | nil => intro _ m0 bp0; rfl
  | cons p rest ih =>
    intro hl m0 bp0
    have hp : κ p = some (g p) := hl p (List.mem_cons_self _ _)
    have hrest : ∀ q ∈ rest, κ q = some (g q) :=
      fun q hq => hl q (List.mem_cons_of_mem _ hq)
    simp only [bestLoop, pureLoop, hp]
    by_cases hlt : g p < m0
    · rw [if_pos hlt, if_pos hlt, ih hrest]
    · rw [if_neg hlt, if_neg hlt, ih hrest]

theorem pureLoop_spec (g : List String → ℚ) (src : String) :
    ∀ (l : List (List String)) (m0 : ℚ) (bp0 : List String) (m : ℚ)
      (bp : List String),
      pureLoop g src (m0, bp0) l = (m, bp) →
      (m ≤ m0 ∧ ∀ q ∈ l, m ≤ g q) ∧
      ((m = m0 ∧ bp = bp0 ∧ ∀ q ∈ l, ¬ g q < m0) ∨
       (∃ (i : Nat) (p : List String), l[i]? = some p ∧ g p = m ∧ m < m0 ∧
         bp = src :: p ∧
         ∀ (j : Nat) (q : List String), j < i → l[j]? = some q → m < g q)) := by
  intro l
  induction l with
  | nil =>
    intro m0 bp0 m bp h
    simp only [pureLoop] at h
    injection h with h1 h2
    subst h1
    subst h2
    exact ⟨⟨le_refl _, by simp⟩, Or.inl ⟨rfl, rfl, by simp⟩⟩
  | cons p rest ih =>
    intro m0 bp0 m bp h
    simp only [pureLoop] at h
    by_cases hlt : g p < m0
    · rw [if_pos hlt] at h
      obtain ⟨⟨h1, h2⟩, h3⟩ := ih (g p) (src :: p) m bp h
      refine ⟨⟨le_trans h1 (le_of_lt hlt), ?_⟩, ?_⟩
      · intro q hq
        rcases List.mem_cons.mp hq with rfl | hq'
        · exact h1
        · exact h2 q hq'
      · rcases h3 with ⟨hm, hbp, _⟩ | ⟨i, p', hi, hgp', hlt', hbp', hearly⟩
        · refine Or.inr ⟨0, p, List.getElem?_cons_zero, hm.symm, ?_, hbp, ?_⟩
          · rw [hm]; exact hlt
          · intro j q hj _
            omega
        · refine Or.inr ⟨i + 1, p', ?_, hgp', lt_trans hlt' hlt, hbp', ?_⟩
          · rw [List.getElem?_cons_succ]
            exact hi
          · intro j q hj hq
            cases j with
            | zero =>
              have hqp : q = p := by
                rw [List.getElem?_cons_zero] at hq
                exact (Option.some.injEq _ _ ▸ hq).symm
              rw [hqp]
              exact hlt'
            | succ j' =>
              rw [List.getElem?_cons_succ] at hq
              exact hearly j' q (by omega) hq
    · rw [if_neg hlt] at h
      obtain ⟨⟨h1, h2⟩, h3⟩ := ih m0 bp0 m bp h
      have hge : m0 ≤ g p := not_lt.mp hlt
      refine ⟨⟨h1, ?_⟩, ?_⟩
      · intro q hq
        rcases List.mem_cons.mp hq with rfl | hq'
        · exact le_trans h1 hge
        · exact h2 q hq'
      · rcases h3 with ⟨hm, hbp, hall⟩ | ⟨i, p', hi, hgp', hlt', hbp', hearly⟩
        · refine Or.inl ⟨hm, hbp, ?_⟩
          intro q hq
          rcases List.mem_cons.mp hq with rfl | hq'
          · exact hlt
          · exact hall q hq'
        · refine Or.inr ⟨i + 1, p', ?_, hgp', hlt', hbp', ?_⟩
          · rw [List.getElem?_cons_succ]
            exact hi
          · intro j q hj hq
            cases j with
            | zero =>
              have hqp : q = p := by
                rw [List.getElem?_cons_zero] at hq
                exact (Option.some.injEq _ _ ▸ hq).symm
              rw [hqp]
              exact lt_of_lt_of_le hlt' hge
            | succ j' =>
              rw [List.getElem?_cons_succ] at hq
              exact hearly j' q (by omega) hq

theorem source_mem_keys (source : Location ℚ) (orders : List (Order ℚ)) :
    source.id ∈ dictKeys (buildLocations source orders) := by
  rw [mem_dictKeys_buildLocations]
  exact Or.inl rfl

theorem valid_path_mem_keys {source : Location ℚ} {orders : List (Order ℚ)}
    {p : List String} (hp : p ∈ valid_paths source orders) :
    ∀ x ∈ p, x ∈ dictKeys (buildLocations source orders) := by
  intro x hx
  have hperm := (mem_valid_paths hp).1
  have hxw : x ∈ waypointIds source orders := hperm.mem_iff.mp hx
  exact (mem_waypointIds.mp hxw).1

theorem cost_defined (dist : Location ℚ → Location ℚ → ℚ) (timeEst : ℚ → ℚ)
    (source : Location ℚ) (orders : List (Order ℚ)) {p : List String}
    (hp : p ∈ valid_paths source orders) :
    total_time_mins source p
        (precompute_travel_times dist timeEst (buildLocations source orders))
        (buildPrepTimes orders) =
      some (specTotalTime
        (precompute_travel_times dist timeEst (buildLocations source orders))
        (buildPrepTimes orders) source.id 0 p) := by
  unfold total_time_mins
  apply totalTimeAux_eq_spec
  · exact squareMatrix_precompute dist timeEst _
  · rw [dictKeys_precompute]
    exact source_mem_keys source orders
  · intro x hx
    rw [dictKeys_precompute]
    exact valid_path_mem_keys hp x hx

theorem best_route_spec (dist : Location ℚ → Location ℚ → ℚ) (timeEst : ℚ → ℚ)
    (source : Location ℚ) (orders : List (Order ℚ))
    (hne : valid_paths source orders ≠ []) :
    ∃ (i : Nat) (p : List String) (m : ℚ),
      (valid_paths source orders)[i]? = some p ∧
      best_route dist timeEst source orders = some (source.id :: p, m) ∧
      total_time_mins source p
        (precompute_travel_times dist timeEst (buildLocations source orders))
        (buildPrepTimes orders) = some m ∧
      (∀ q ∈ valid_paths source orders, ∀ tq : ℚ,
        total_time_mins source q
          (precompute_travel_times dist timeEst (buildLocations source orders))
          (buildPrepTimes orders) = some tq → m ≤ tq) ∧
      (∀ (j : Nat) (q : List String) (tq : ℚ), j < i →
        (valid_paths source orders)[j]? = some q →
        total_time_mins source q
          (precompute_travel_times dist timeEst (buildLocations source orders))
          (buildPrepTimes orders) = some tq → m < tq) := by
  set tt := precompute_travel_times dist timeEst (buildLocations source orders)
    with htt
  set pt := buildPrepTimes orders with hpt
  set g : List String → ℚ :=
    fun q => specTotalTime tt pt source.id 0 q with hg
  have hdef : ∀ q ∈ valid_paths source orders,
      total_time_mins source q tt pt = some (g q) :=
    fun q hq => cost_defined dist timeEst source orders hq
  obtain ⟨p0, rest, hvp⟩ : ∃ p0 rest, valid_paths source orders = p0 :: rest := by
    cases hv : valid_paths source orders with
    | nil => exact absurd hv hne
    | cons a l => exact ⟨a, l, rfl⟩
  have hemp : (valid_paths source orders).isEmpty = false := by
    rw [hvp]
    rfl
  have hκ0 : total_time_mins source p0 tt pt = some (g p0) :=
    hdef p0 (by rw [hvp]; exact List.mem_cons_self _ _)
  have hrestdef : ∀ q ∈ rest, total_time_mins source q tt pt = some (g q) :=
    fun q hq => hdef q (by rw [hvp]; exact List.mem_cons_of_mem _ hq)
  have hloop : bestLoop (fun p => total_time_mins source p tt pt) source.id
      none (valid_paths source orders) =
      some (some (pureLoop g source.id (g p0, source.id :: p0) rest)) := by
    rw [hvp]
    simp only [bestLoop, hκ0]
    exact bestLoop_eq_pureLoop _ g source.id rest hrestdef (g p0) (source.id :: p0)
  obtain ⟨m, bp, hpure⟩ : ∃ m bp,
      pureLoop g source.id (g p0, source.id :: p0) rest = (m, bp) :=
    ⟨_, _, rfl⟩
  have hbr : best_route dist timeEst source orders = some (bp, m) := by
    unfold best_route
    rw [if_neg (by rw [hemp]; exact Bool.false_ne_true)]
    rw [← htt, ← hpt, hloop, hpure]
  obtain ⟨⟨h1, h2⟩, h3⟩ := pureLoop_spec g source.id rest (g p0)
    (source.id :: p0) m bp hpure
  rcases h3 with ⟨hm, hbp, hall⟩ | ⟨i, p', hi, hgp', hlt', hbp', hearly⟩
  · refine ⟨0, p0, m, ?_, ?_, ?_, ?_, ?_⟩
    · rw [hvp]
      exact List.getElem?_cons_zero
    · rw [hbr, hbp]
    · rw [hκ0, hm]
    · intro q hq tq htq
      rw [hvp] at hq
      rcases List.mem_cons.mp hq with rfl | hq'
      · rw [hκ0] at htq
        injection htq with htq'
        rw [← htq', hm]
      · rw [hrestdef q hq'] at htq
        injection htq with htq'
        rw [← htq']
        rw [hm]
        exact not_lt.mp (hall q hq')
    · intro j q tq hj _ _
      omega
  · refine ⟨i + 1, p', m, ?_, ?_, ?_, ?_, ?_⟩
    · rw [hvp, List.getElem?_cons_succ]
      exact hi
    · rw [hbr, hbp']
    · rw [hdef p' (by rw [hvp]; exact List.mem_cons_of_mem _ (mem_of_getElem? hi)),
        hgp']
    · intro q hq tq htq
      rw [hvp] at hq
      rcases List.mem_cons.mp hq with rfl | hq'
      · rw [hκ0] at htq
        injection htq with htq'
        rw [← htq']
        exact le_of_lt hlt'
      · rw [hrestdef q hq'] at htq
        injection htq with htq'
        rw [← htq']
        exact h2 q hq'
    · intro j q tq hj hq htq
      rw [hvp] at hq
      cases j with
      | zero =>
        rw [List.getElem?_cons_zero] at hq
        injection hq with hq'
        rw [← hq'] at htq
        rw [hκ0] at htq
        injection htq with htq'
        rw [← htq']
        exact hlt'
      | succ j' =>
        rw [List.getElem?_cons_succ] at hq
        rw [hrestdef q (mem_of_getElem? hq)] at htq
        injection htq with htq'
        rw [← htq']
        exact hearly j' q (by omega) hq

theorem snd_mem_of_mem_enumFrom {α : Type} :
    ∀ (l : List α) (n : Nat) (e : Nat × α), e ∈ List.enumFrom n l → e.2 ∈ l := by
  intro l
  induction l with
  | nil => intro n e he; simp at he
  | cons x xs ih =>
    intro n e he
    rw [List.enumFrom_cons] at he
    rcases List.mem_cons.mp he with rfl | he'
    · exact List.mem_cons_self _ _
    · exact List.mem_cons_of_mem _ (ih (n + 1) e he')

theorem mem_enumFrom_of_mem {α : Type} :
    ∀ (l : List α) (n : Nat) (x : α), x ∈ l →
      ∃ k, (k, x) ∈ List.enumFrom n l := by
  intro l
  induction l with
  | nil => intro n x hx; simp at hx
  | cons y ys ih =>
    intro n x hx
    rcases List.mem_cons.mp hx with rfl | hx'
    · exact ⟨n, by rw [List.enumFrom_cons]; exact List.mem_cons_self _ _⟩
    · obtain ⟨k, hk⟩ := ih (n + 1) x hx'
      exact ⟨k, by rw [List.enumFrom_cons]; exact List.mem_cons_of_mem _ hk⟩

theorem indexOfDict_get?_not_mem (path : List String) (x : String)
    (hx : x ∉ path) : dictGet? (indexOfDict path) x = none := by
  rw [indexOfDict_get?]
  have hnil : (path.enum.map (fun e => (e.2, e.1))).filter
      (fun e => e.1 = x) = [] := by
    rw [List.filter_eq_nil_iff]
    intro a ha
    rw [List.mem_map] at ha
    obtain ⟨e', he', rfl⟩ := ha
    simp only [decide_eq_true_eq]
    intro hax
    apply hx
    rw [← hax]
    exact snd_mem_of_mem_enumFrom path 0 e' (by simpa [List.enum] using he')
  rw [hnil]
  rfl

theorem indexOfDict_isSome_of_mem (path : List String) (x : String)
    (hx : x ∈ path) : ∃ i, dictGet? (indexOfDict path) x = some i := by
  rw [indexOfDict_get?]
  have hne : (path.enum.map (fun e => (e.2, e.1))).filter
      (fun e => e.1 = x) ≠ [] := by
    intro hnil
    rw [List.filter_eq_nil_iff] at hnil
    obtain ⟨k, hk⟩ := mem_enumFrom_of_mem path 0 x hx
    have hmem : ((k, x).2, (k, x).1) ∈ path.enum.map (fun e => (e.2, e.1)) := by
      rw [List.mem_map]
      exact ⟨(k, x), by simpa [List.enum] using hk, rfl⟩
    have := hnil _ hmem
    simp at this
  cases hlast : ((path.enum.map (fun e => (e.2, e.1))).filter
      (fun e => e.1 = x)).getLast? with
  | none => exact absurd (List.getLast?_eq_none.mp hlast) hne
  | some e => exact ⟨e.2, rfl⟩

theorem is_valid_cons (path : List String) (rc : String × String)
    (rest : List (String × String)) :
    is_valid path (rc :: rest) =
      ((match dictGet? (indexOfDict path) rc.1,
          dictGet? (indexOfDict path) rc.2 with
        | some ri, some ci => !(ri > ci)
        | _, _ => true) && is_valid path rest) := by
  unfold is_valid
  rw [List.all_cons]

theorem legacy_eq_is_valid (path : List String) :
    ∀ (pairs : List (String × String)),
      (∀ rc ∈ pairs, rc.1 ∈ path ∧ rc.2 ∈ path) →
      legacy_is_path_valid path pairs = some (is_valid path pairs) := by
  intro pairs
  induction pairs with
  | nil => intro _; rfl
  | cons rc rest ih =>
    intro hmem
    obtain ⟨hr, hc⟩ := hmem rc (List.mem_cons_self _ _)
    obtain ⟨ri, hri⟩ := indexOfDict_isSome_of_mem path rc.1 hr
    obtain ⟨ci, hci⟩ := indexOfDict_isSome_of_mem path rc.2 hc
    rw [is_valid_cons]
    unfold legacy_is_path_valid legacyIsPathValidAux
    rw [hri, hci]
    show (if ri > ci then some false
        else legacyIsPathValidAux (indexOfDict path) rest) =
      some ((!decide (ri > ci)) && is_valid path rest)
    by_cases hgt : ri > ci
    · rw [if_pos hgt]
      simp [hgt]
    · rw [if_neg hgt]
      have hih := ih (fun rc' h' => hmem rc' (List.mem_cons_of_mem _ h'))
      unfold legacy_is_path_valid at hih
      rw [hih]
      simp [hgt]

theorem foldlM_collect (f : List String → Option Bool) (g : List String → Bool) :
    ∀ (l : List (List String)), (∀ p ∈ l, f p = some (g p)) →
      ∀ acc : List (List String),
        l.foldlM (fun acc p =>
          (f p).map (fun b => if b then acc ++ [p] else acc)) acc =
          some (acc ++ l.filter g) := by
  intro l
  induction l with
  | nil => intro _ acc; simp
  | cons p rest ih =>
    intro hl acc
    rw [List.foldlM_cons, hl p (List.mem_cons_self _ _)]
    by_cases hgp : g p = true
    · have : ((some (g p)).map (fun b : Bool => if b then acc ++ [p] else acc)) =
          some (acc ++ [p]) := by rw [hgp]; rfl
      rw [this]
      show rest.foldlM _ (acc ++ [p]) = _
      rw [ih (fun q hq => hl q (List.mem_cons_of_mem _ hq)) (acc ++ [p]),
        List.filter_cons_of_pos hgp]
      simp [List.append_assoc]
    · have hgp' : g p = false := by simpa using hgp
      have : ((some (g p)).map (fun b : Bool => if b then acc ++ [p] else acc)) =
          some acc := by rw [hgp']; rfl
      rw [this]
      show rest.foldlM _ acc = _
      rw [ih (fun q hq => hl q (List.mem_cons_of_mem _ hq)) acc,
        List.filter_cons_of_neg (by simp [hgp'])]

theorem legacyValidPaths_eq (source : Location ℚ) (orders : List (Order ℚ))
    (h : ∀ o ∈ orders, o.restaurant.id ≠ source.id ∧ o.customer.id ≠ source.id)
    (hne : orders ≠ []) :
    legacyValidPaths (waypointIds source orders) (orderPairs orders) =
      some (valid_paths source orders) := by
  unfold legacyValidPaths
  rw [foldlM_collect (fun p => legacy_is_path_valid p (orderPairs orders))
    (fun p => is_valid p (orderPairs orders))
    (permutations (waypointIds source orders)) ?_ []]
  · rw [List.nil_append]
    unfold valid_paths
    have hop : ¬ (orderPairs orders).isEmpty = true := by
      rw [List.isEmpty_iff]
      unfold orderPairs
      intro hmap
      exact hne (List.map_eq_nil_iff.mp hmap)
    rw [if_neg hop]
  · intro p hp
    apply legacy_eq_is_valid
    intro rc hrc
    unfold orderPairs at hrc
    obtain ⟨o, ho, rfl⟩ := List.mem_map.mp hrc
    have hperm : p.Perm (waypointIds source orders) := permutations_perm _ p hp
    constructor
    · rw [hperm.mem_iff, mem_waypointIds]
      refine ⟨?_, (h o ho).1⟩
      rw [mem_dictKeys_buildLocations]
      exact Or.inr ⟨o, ho, Or.inl rfl⟩
    · rw [hperm.mem_iff, mem_waypointIds]
      refine ⟨?_, (h o ho).2⟩
      rw [mem_dictKeys_buildLocations]
      exact Or.inr ⟨o, ho, Or.inr rfl⟩

theorem valid_paths_nil (source : Location ℚ) : valid_paths source [] = [] := rfl

theorem best_route_nil (dist : Location ℚ → Location ℚ → ℚ) (timeEst : ℚ → ℚ)
    (source : Location ℚ) :
    best_route dist timeEst source [] = some ([source.id], 0) := rfl

/-- C5: for every valid source, best_route of the empty order list returns
best_path = [source.id] with total_time_mins = 0, and the path generator
yields no candidate path for an empty order sequence. -/
theorem claim_C5 (dist : Location ℚ → Location ℚ → ℚ) (timeEst : ℚ → ℚ)
    (source : Location ℚ) :
    best_route dist timeEst source [] = some ([source.id], 0) ∧
    valid_paths source [] = [] :=
  ⟨best_route_nil dist timeEst source, valid_paths_nil source⟩

/-- C3: for every source id, prep-time map, square travel-time matrix and
path drawn from the matrix key set, the cost calculator equals the spec's
fold: arrival = current + matrix[cur][next], waiting max(0, prep - arrival)
exactly at stops with a prep entry (never at other stops). -/
theorem claim_C3 (source : Location ℚ) (path : List String)
    (tt : List (String × List (String × ℚ))) (pt : List (String × ℚ))
    (hsq : squareMatrix tt) (hsrc : source.id ∈ dictKeys tt)
    (hpath : ∀ x ∈ path, x ∈ dictKeys tt) :
    total_time_mins source path tt pt =
      some (specTotalTime tt pt source.id 0 path) :=
  totalTimeAux_eq_spec tt pt hsq path source.id 0 hsrc hpath

theorem claim_C3_witness :
    squareMatrix exTT ∧ exS.id ∈ dictKeys exTT ∧ (∀ x ∈ ["R"], x ∈ dictKeys exTT) ∧
    total_time_mins exS ["R"] exTT exPT =
      some (specTotalTime exTT exPT exS.id 0 ["R"]) :=
  ⟨by unfold squareMatrix; decide, by decide, by decide,
    claim_C3 exS ["R"] exTT exPT (by unfold squareMatrix; decide) (by decide)
      (by decide)⟩

example : valid_paths exS [exOrder] ≠ [] := by decide
example : ["R", "C"] ∈ valid_paths exS [exOrder] := by decide

/-- C1: whenever the generator yields at least one candidate, best_route
returns the minimum total_time_mins over all candidates, and its best_path is
the source id followed by the earliest candidate attaining that minimum (all
strictly earlier candidates cost strictly more, so a later equal-cost
candidate never replaces it). -/
theorem claim_C1 (dist : Location ℚ → Location ℚ → ℚ) (timeEst : ℚ → ℚ)
    (source : Location ℚ) (orders : List (Order ℚ))
    (hne : valid_paths source orders ≠ []) :
    ∃ (i : Nat) (p : List String) (m : ℚ),
      (valid_paths source orders)[i]? = some p ∧
      best_route dist timeEst source orders = some (source.id :: p, m) ∧
      total_time_mins source p
        (precompute_travel_times dist timeEst (buildLocations source orders))
        (buildPrepTimes orders) = some m ∧
      (∀ q ∈ valid_paths source orders, ∀ tq : ℚ,
        total_time_mins source q
          (precompute_travel_times dist timeEst (buildLocations source orders))
          (buildPrepTimes orders) = some tq → m ≤ tq) ∧
      (∀ (j : Nat) (q : List String) (tq : ℚ), j < i →
        (valid_paths source orders)[j]? = some q →
        total_time_mins source q
          (precompute_travel_times dist timeEst (buildLocations source orders))
          (buildPrepTimes orders) = some tq → m < tq) :=
  best_route_spec dist timeEst source orders hne

theorem claim_C1_witness :
    valid_paths exS [exOrder] ≠ [] ∧
    ∃ (i : Nat) (p : List String) (m : ℚ),
      (valid_paths exS [exOrder])[i]? = some p ∧
      best_route exDist exTimeEst exS [exOrder] = some (exS.id :: p, m) ∧
      total_time_mins exS p
        (precompute_travel_times exDist exTimeEst (buildLocations exS [exOrder]))
        (buildPrepTimes [exOrder]) = some m ∧
      (∀ q ∈ valid_paths exS [exOrder], ∀ tq : ℚ,
        total_time_mins exS q
          (precompute_travel_times exDist exTimeEst (buildLocations exS [exOrder]))
          (buildPrepTimes [exOrder]) = some tq → m ≤ tq) ∧
      (∀ (j : Nat) (q : List String) (tq : ℚ), j < i →
        (valid_paths exS [exOrder])[j]? = some q →
        total_time_mins exS q
          (precompute_travel_times exDist exTimeEst (buildLocations exS [exOrder]))
          (buildPrepTimes [exOrder]) = some tq → m < tq) :=
  ⟨by decide, claim_C1 exDist exTimeEst exS [exOrder] (by decide)⟩

/-- C6: within a best_route call the precomputed matrix has a key for every
id of every candidate path and of the prep-time map, every diagonal entry is
0, and every cost evaluation is defined (the missing-key branch is
unreachable). -/
theorem claim_C6 (dist : Location ℚ → Location ℚ → ℚ) (timeEst : ℚ → ℚ)
    (source : Location ℚ) (orders : List (Order ℚ)) :
    (∀ p ∈ valid_paths source orders, ∀ x ∈ p,
      x ∈ dictKeys (precompute_travel_times dist timeEst
        (buildLocations source orders))) ∧
    (∀ r ∈ dictKeys (buildPrepTimes orders),
      r ∈ dictKeys (precompute_travel_times dist timeEst
        (buildLocations source orders))) ∧
    (∀ a ∈ dictKeys (precompute_travel_times dist timeEst
        (buildLocations source orders)),
      mat2get? (precompute_travel_times dist timeEst
        (buildLocations source orders)) a a = some 0) ∧
    (∀ p ∈ valid_paths source orders,
      (total_time_mins source p
        (precompute_travel_times dist timeEst (buildLocations source orders))
        (buildPrepTimes orders)).isSome = true) := by
  refine ⟨?_, ?_, ?_, ?_⟩
  · intro p hp x hx
    rw [dictKeys_precompute]
    exact valid_path_mem_keys hp x hx
  · intro r hr
    rw [dictKeys_precompute]
    obtain ⟨o, ho, rfl⟩ := (mem_dictKeys_buildPrepTimes orders r).mp hr
    rw [mem_dictKeys_buildLocations]
    exact Or.inr ⟨o, ho, Or.inl rfl⟩
  · intro a ha
    apply mat2get?_diag
    rw [dictKeys_precompute] at ha
    exact ha
  · intro p hp
    rw [cost_defined dist timeEst source orders hp]
    rfl

theorem claim_C6_witness :
    ["R", "C"] ∈ valid_paths exS [exOrder] ∧
    (total_time_mins exS ["R", "C"]
      (precompute_travel_times exDist exTimeEst (buildLocations exS [exOrder]))
      (buildPrepTimes [exOrder])).isSome = true :=
  ⟨by decide,
    (claim_C6 exDist exTimeEst exS [exOrder]).2.2.2 ["R", "C"] (by decide)⟩

/-- C7: when the same restaurant id occurs in several orders, the prep-time
map stores the last such order's prep_time_mins, and the location map keeps
the last-written Location value for every id. -/
theorem claim_C7 (source : Location ℚ) (orders : List (Order ℚ)) (r : String)
    (o' : Order ℚ)
    (hdup : 2 ≤ (orders.filter (fun o => o.restaurant.id = r)).length)
    (hlast : (orders.filter (fun o => o.restaurant.id = r)).getLast? = some o') :
    dictGet? (buildPrepTimes orders) r = some o'.prep_time_mins ∧
    (∀ (x : String) (e : String × Location ℚ),
      ((locationEvents source orders).filter
        (fun ev => ev.1 = x)).getLast? = some e →
      dictGet? (buildLocations source orders) x = some e.2) := by
  constructor
  · rw [buildPrepTimes_eq_foldl, dictGet?_foldl_insert]
    have hfm : (orders.map
        (fun o => (o.restaurant.id, o.prep_time_mins))).filter
          (fun e => e.1 = r) =
        (orders.filter (fun o => o.restaurant.id = r)).map
          (fun o => (o.restaurant.id, o.prep_time_mins)) := by
      rw [List.filter_map]
      rfl
    rw [hfm, List.getLast?_map, hlast]
    rfl
  · intro x e hx
    rw [buildLocations_eq_foldl, dictGet?_foldl_insert, hx]

theorem claim_C7_witness :
    2 ≤ ([exOrder, exOrder2].filter (fun o => o.restaurant.id = "R")).length ∧
    ([exOrder, exOrder2].filter
      (fun o => o.restaurant.id = "R")).getLast? = some exOrder2 ∧
    dictGet? (buildPrepTimes [exOrder, exOrder2]) "R" =
      some exOrder2.prep_time_mins :=
  ⟨by decide, by decide,
    (claim_C7 exS [exOrder, exOrder2] "R" exOrder2 (by decide) (by decide)).1⟩

/-- C9: a precedence pair one of whose ids is absent from the permutation
(e.g. because it equals the excluded source id) is skipped by _is_valid, so
it never causes a rejection: validity with the pair equals validity without
it, and the present member may sit anywhere. -/
theorem claim_C9 (path : List String) (pairs₁ pairs₂ : List (String × String))
    (r c : String) (h : r ∉ path ∨ c ∉ path) :
    is_valid path (pairs₁ ++ (r, c) :: pairs₂) =
      is_valid path (pairs₁ ++ pairs₂) := by
  unfold is_valid
  simp only [List.all_append, List.all_cons]
  have hcheck : (match dictGet? (indexOfDict path) r,
      dictGet? (indexOfDict path) c with
    | some ri, some ci => !(ri > ci)
    | _, _ => true) = true := by
    rcases h with hr | hc
    · rw [indexOfDict_get?_not_mem path r hr]
    · rw [indexOfDict_get?_not_mem path c hc]
      cases dictGet? (indexOfDict path) r <;> rfl
  rw [hcheck, Bool.true_and]

theorem claim_C9_witness :
    ("R2" ∉ ["R1", "C1", "R2"] ∨ "S" ∉ ["R1", "C1", "R2"]) ∧
    is_valid ["R1", "C1", "R2"] ([] ++ ("R2", "S") :: [("R1", "C1")]) =
      is_valid ["R1", "C1", "R2"] ([] ++ [("R1", "C1")]) :=
  ⟨by decide,
    claim_C9 ["R1", "C1", "R2"] [] [("R1", "C1")] "R2" "S" (by decide)⟩

theorem haverH_self (a : Location ℝ) : haverH a a = 0 := by
  unfold haverH
  simp [sub_self]

theorem haverH_symm (a b : Location ℝ) : haverH a b = haverH b a := by
  have hsin : ∀ x y : ℝ,
      Real.sin ((x - y) / 2) ^ 2 = Real.sin ((y - x) / 2) ^ 2 := by
    intro x y
    have hneg : (x - y) / 2 = -((y - x) / 2) := by ring
    rw [hneg, Real.sin_neg]
    ring
  unfold haverH
  rw [hsin (radians b.lat) (radians a.lat), hsin (radians b.lon) (radians a.lon),
    mul_comm (Real.cos (radians a.lat)) (Real.cos (radians b.lat))]

/-- C8: haversine distance over a real-valued embedding: distance of a
location to itself is exactly 0, and the distance is exactly symmetric. -/
theorem claim_C8 (a b : Location ℝ) :
    distance_km earthRadiusKm a a = 0 ∧
    distance_km earthRadiusKm a b = distance_km earthRadiusKm b a := by
  constructor
  · unfold distance_km
    rw [haverH_self]
    rw [Real.sqrt_zero, sub_zero, Real.sqrt_one]
    unfold atan2
    rw [if_pos (by norm_num : (0:ℝ) < 1)]
    rw [zero_div, Real.arctan_zero]
    ring
  · unfold distance_km
    rw [haverH_symm]

/-- C2 counterexample: an order whose customer id equals the source id.  Its
customer sits at position 0 of the returned path, before its restaurant. -/
theorem claim_C2_counterexample :
    best_route exDist exTimeEst exS [exOrderBad] = some (["S", "R"], 3) ∧
    ¬ (["S", "R"].indexOf exOrderBad.restaurant.id <
        ["S", "R"].indexOf exOrderBad.customer.id) := by
  constructor
  · with_unfolding_all rfl
  · decide

/-- C2 (amended): when a candidate path exists and the order's customer id
differs from both the source id and the order's restaurant id, the
restaurant id's position in the returned best_path strictly precedes the
customer id's position. -/
theorem claim_C2 (dist : Location ℚ → Location ℚ → ℚ) (timeEst : ℚ → ℚ)
    (source : Location ℚ) (orders : List (Order ℚ))
    (hne : valid_paths source orders ≠ [])
    (o : Order ℚ) (ho : o ∈ orders) (hco : o.customer.id ≠ source.id)
    (hrc : o.restaurant.id ≠ o.customer.id)
    (bp : List String) (m : ℚ)
    (hbr : best_route dist timeEst source orders = some (bp, m)) :
    bp.indexOf o.restaurant.id < bp.indexOf o.customer.id := by
  obtain ⟨i, p, m', hi, hbr', _, _, _⟩ :=
    best_route_spec dist timeEst source orders hne
  have hbp : bp = source.id :: p := by
    have hh := hbr.symm.trans hbr'
    injection hh with h2
    exact congrArg Prod.fst h2
  subst hbp
  have hp : p ∈ valid_paths source orders := mem_of_getElem? hi
  obtain ⟨hperm, hval⟩ := mem_valid_paths hp
  have hnd : p.Nodup := hperm.nodup_iff.mpr (waypointIds_nodup source orders)
  have hcw : o.customer.id ∈ waypointIds source orders := by
    rw [mem_waypointIds]
    refine ⟨?_, hco⟩
    rw [mem_dictKeys_buildLocations]
    exact Or.inr ⟨o, ho, Or.inr rfl⟩
  have hcp : o.customer.id ∈ p := hperm.mem_iff.mpr hcw
  by_cases hr : o.restaurant.id = source.id
  · rw [hr, List.indexOf_cons_self, List.indexOf_cons_ne p (Ne.symm hco)]
    exact Nat.succ_pos _
  · have hrw : o.restaurant.id ∈ waypointIds source orders := by
      rw [mem_waypointIds]
      refine ⟨?_, hr⟩
      rw [mem_dictKeys_buildLocations]
      exact Or.inr ⟨o, ho, Or.inl rfl⟩
    have hrp : o.restaurant.id ∈ p := hperm.mem_iff.mpr hrw
    have hrcp : (o.restaurant.id, o.customer.id) ∈ orderPairs orders := by
      unfold orderPairs
      exact List.mem_map.mpr ⟨o, ho, rfl⟩
    have hle := is_valid_spec hval hnd hrcp hrp hcp
    have hneq : p.indexOf o.restaurant.id ≠ p.indexOf o.customer.id := by
      intro heq
      exact hrc ((List.indexOf_inj hrp hcp).mp heq)
    have hlt : p.indexOf o.restaurant.id < p.indexOf o.customer.id :=
      lt_of_le_of_ne hle hneq
    rw [List.indexOf_cons_ne p (fun hh => hr hh.symm),
      List.indexOf_cons_ne p (Ne.symm hco)]
    exact Nat.succ_lt_succ hlt

theorem claim_C2_witness :
    valid_paths exS [exOrder] ≠ [] ∧ exOrder ∈ [exOrder] ∧
    exOrder.customer.id ≠ exS.id ∧
    exOrder.restaurant.id ≠ exOrder.customer.id ∧
    best_route exDist exTimeEst exS [exOrder] = some (["S", "R", "C"], 8) ∧
    ["S", "R", "C"].indexOf exOrder.restaurant.id <
      ["S", "R", "C"].indexOf exOrder.customer.id :=
  ⟨by decide, by decide, by decide, by decide, by with_unfolding_all rfl,
    claim_C2 exDist exTimeEst exS [exOrder] (by decide) exOrder (by decide)
      (by decide) (by decide) ["S", "R", "C"] 8 (by with_unfolding_all rfl)⟩

theorem c4_locs (source R C : Location ℚ) (prep : ℚ)
    (hSR : source.id ≠ R.id) (hSC : source.id ≠ C.id) (hRC : R.id ≠ C.id) :
    buildLocations source [⟨R, C, prep⟩] =
      [(source.id, source), (R.id, R), (C.id, C)] := by
  simp [buildLocations, dictInsert, hSR, hSC, hRC]

theorem c4_wp (source R C : Location ℚ) (prep : ℚ)
    (hSR : source.id ≠ R.id) (hSC : source.id ≠ C.id) (hRC : R.id ≠ C.id) :
    waypointIds source [⟨R, C, prep⟩] = [R.id, C.id] := by
  unfold waypointIds
  rw [c4_locs source R C prep hSR hSC hRC]
  simp [dictKeys, hSR, hSC, Ne.symm hSR, Ne.symm hSC]

theorem c4_perms (r c : String) :
    permutations [r, c] = [[r, c], [c, r]] := rfl

theorem c4_nodup1 {r c : String} (hRC : r ≠ c) : ([r, c] : List String).Nodup := by
  simp [hRC]

theorem c4_valid1 {r c : String} (hRC : r ≠ c) :
    is_valid [r, c] [(r, c)] = true := by
  unfold is_valid
  simp only [List.all_cons, List.all_nil,
    indexOfDict_get?_nodup [r, c] (c4_nodup1 hRC)]
  simp [List.indexOf_cons_self, List.indexOf_cons_ne, Ne.symm hRC]

theorem c4_valid2 {r c : String} (hRC : r ≠ c) :
    is_valid [c, r] [(r, c)] = false := by
  unfold is_valid
  simp only [List.all_cons, List.all_nil,
    indexOfDict_get?_nodup [c, r] (c4_nodup1 (Ne.symm hRC))]
  simp [List.indexOf_cons_self, List.indexOf_cons_ne, hRC, Ne.symm hRC]

theorem c4_vp (source R C : Location ℚ) (prep : ℚ)
    (hSR : source.id ≠ R.id) (hSC : source.id ≠ C.id) (hRC : R.id ≠ C.id) :
    valid_paths source [⟨R, C, prep⟩] = [[R.id, C.id]] := by
  unfold valid_paths
  rw [if_neg (by simp [orderPairs])]
  rw [c4_wp source R C prep hSR hSC hRC]
  have hop : orderPairs [⟨R, C, prep⟩] = [(R.id, C.id)] := rfl
  rw [hop, c4_perms]
  simp only [List.filter_cons, List.filter_nil]
  rw [c4_valid1 hRC, c4_valid2 hRC]
  rfl

theorem c4_tot (dist : Location ℚ → Location ℚ → ℚ) (timeEst : ℚ → ℚ)
    (source R C : Location ℚ) (prep : ℚ)
    (hSR : source.id ≠ R.id) (hSC : source.id ≠ C.id) (hRC : R.id ≠ C.id) :
    total_time_mins source [R.id, C.id]
      (precompute_travel_times dist timeEst
        (buildLocations source [⟨R, C, prep⟩]))
      (buildPrepTimes [⟨R, C, prep⟩]) =
      some (timeEst (dist source R) + max 0 (prep - timeEst (dist source R)) +
        timeEst (dist R C)) := by
  have hlocs := c4_locs source R C prep hSR hSC hRC
  have hga : dictGet? [(source.id, source), (R.id, R), (C.id, C)] source.id =
      some source := by
    simp [dictGet?, List.find?]
  have hgr : dictGet? [(source.id, source), (R.id, R), (C.id, C)] R.id =
      some R := by
    simp [dictGet?, List.find?, hSR]
  have hgc : dictGet? [(source.id, source), (R.id, R), (C.id, C)] C.id =
      some C := by
    simp [dictGet?, List.find?, hSC, hRC]
  have hm1 : mat2get? (precompute_travel_times dist timeEst
      (buildLocations source [⟨R, C, prep⟩])) source.id R.id =
      some (timeEst (dist source R)) := by
    rw [hlocs]
    exact mat2get?_ne dist timeEst _ source.id R.id source R hSR hga hgr
  have hm2 : mat2get? (precompute_travel_times dist timeEst
      (buildLocations source [⟨R, C, prep⟩])) R.id C.id =
      some (timeEst (dist R C)) := by
    rw [hlocs]
    exact mat2get?_ne dist timeEst _ R.id C.id R C hRC hgr hgc
  have hpt : buildPrepTimes [⟨R, C, prep⟩] = [(R.id, prep)] := rfl
  have hpr : dictGet? (buildPrepTimes [⟨R, C, prep⟩]) R.id = some prep := by
    rw [hpt]
    simp [dictGet?, List.find?]
  have hpc : dictGet? (buildPrepTimes [⟨R, C, prep⟩]) C.id = none := by
    rw [hpt]
    simp [dictGet?, List.find?, hRC]
  unfold total_time_mins
  rw [totalTimeAux, hm1]
  simp only [hpr]
  rw [totalTimeAux, hm2]
  simp only [hpc]
  rw [totalTimeAux]
  norm_num

/-- C4 (amended): for a single order whose three ids are pairwise distinct,
best_route returns exactly [source.id, R.id, C.id] with total time
t1 + max(0, prep - t1) + minutes(distance(R, C)), t1 = minutes(distance(source, R)). -/
theorem claim_C4 (dist : Location ℚ → Location ℚ → ℚ) (timeEst : ℚ → ℚ)
    (source R C : Location ℚ) (prep : ℚ)
    (hSR : source.id ≠ R.id) (hSC : source.id ≠ C.id) (hRC : R.id ≠ C.id) :
    best_route dist timeEst source [⟨R, C, prep⟩] =
      some ([source.id, R.id, C.id],
        timeEst (dist source R) + max 0 (prep - timeEst (dist source R)) +
          timeEst (dist R C)) := by
  have hvp := c4_vp source R C prep hSR hSC hRC
  have hne : valid_paths source [⟨R, C, prep⟩] ≠ [] := by
    rw [hvp]
    simp
  obtain ⟨i, p, m, hi, hbr, htotm, _, _⟩ :=
    best_route_spec dist timeEst source [⟨R, C, prep⟩] hne
  rw [hvp] at hi
  have hip : p = [R.id, C.id] := by
    cases i with
    | zero =>
      rw [List.getElem?_cons_zero] at hi
      injection hi with hi'
      exact hi'.symm
    | succ n => simp at hi
  subst hip
  have htot := c4_tot dist timeEst source R C prep hSR hSC hRC
  rw [htot] at htotm
  injection htotm with hm
  rw [hbr, hm]

/-- C4 counterexample: with a single order whose customer id equals the
source id, the returned path is [S, R], not [source.id, R.id, C.id]. -/
theorem claim_C4_counterexample :
    best_route exDist exTimeEst exS [exOrderBad] = some (["S", "R"], 3) ∧
    ["S", "R"] ≠ [exS.id, exOrderBad.restaurant.id, exOrderBad.customer.id] :=
  ⟨by with_unfolding_all rfl, by decide⟩

theorem claim_C4_witness :
    exS.id ≠ exR.id ∧ exS.id ≠ exC.id ∧ exR.id ≠ exC.id ∧
    best_route exDist exTimeEst exS [⟨exR, exC, 5⟩] =
      some ([exS.id, exR.id, exC.id],
        exTimeEst (exDist exS exR) + max 0 (5 - exTimeEst (exDist exS exR)) +
          exTimeEst (exDist exR exC)) :=
  ⟨by decide, by decide, by decide,
    claim_C4 exDist exTimeEst exS exR exC 5 (by decide) (by decide) (by decide)⟩

theorem find_best_route_nil (dist : Location ℚ → Location ℚ → ℚ)
    (timeEst : ℚ → ℚ) (source : Location ℚ) :
    find_best_route dist timeEst source [] = some ([source.id], 0) := by
  have hwps : (dictKeys (buildLocations source [])).filter
      (fun lid => lid ≠ source.id) = [] := by
    have hb : buildLocations source [] = [(source.id, source)] := rfl
    rw [hb]
    simp [dictKeys]
  have hbody : find_best_route dist timeEst source [] =
      match legacyValidPaths ((dictKeys (buildLocations source [])).filter
        (fun lid => lid ≠ source.id)) (orderPairs []) with
      | none => none
      | some valid =>
        if valid.isEmpty then some ([source.id], 0)
        else
          match bestLoop (fun p => total_time_mins source p
            (precompute_travel_times dist timeEst (buildLocations source []))
            (buildPrepTimes [])) source.id none valid with
          | some (some (m, bp)) => some (bp, m)
          | _ => none := rfl
  rw [hbody, hwps]
  have hlvp : legacyValidPaths [] (orderPairs ([] : List (Order ℚ))) =
      some [[]] := rfl
  rw [hlvp]
  rfl

/-- C10: on inputs where no order references the source id, the legacy
find_best_route and the new best_route (same injected distance and speed
models) return the same best_path and total_time_mins. -/
theorem claim_C10 (dist : Location ℚ → Location ℚ → ℚ) (timeEst : ℚ → ℚ)
    (source : Location ℚ) (orders : List (Order ℚ))
    (h : ∀ o ∈ orders, o.restaurant.id ≠ source.id ∧
      o.customer.id ≠ source.id) :
    find_best_route dist timeEst source orders =
      best_route dist timeEst source orders := by
  by_cases horders : orders = []
  · subst horders
    rw [find_best_route_nil, best_route_nil]
  · have hbody : find_best_route dist timeEst source orders =
        match legacyValidPaths ((dictKeys (buildLocations source orders)).filter
          (fun lid => lid ≠ source.id)) (orderPairs orders) with
        | none => none
        | some valid =>
          if valid.isEmpty then some ([source.id], 0)
          else
            match bestLoop (fun p => total_time_mins source p
              (precompute_travel_times dist timeEst
                (buildLocations source orders))
              (buildPrepTimes orders)) source.id none valid with
            | some (some (m, bp)) => some (bp, m)
            | _ => none := rfl
    have hbody2 : best_route dist timeEst source orders =
        if (valid_paths source orders).isEmpty then some ([source.id], 0)
        else
          match bestLoop (fun p => total_time_mins source p
            (precompute_travel_times dist timeEst
              (buildLocations source orders))
            (buildPrepTimes orders)) source.id none
            (valid_paths source orders) with
          | some (some (m, bp)) => some (bp, m)
          | _ => none := rfl
    have hwid : (dictKeys (buildLocations source orders)).filter
        (fun lid => lid ≠ source.id) = waypointIds source orders := rfl
    rw [hbody, hbody2, hwid, legacyValidPaths_eq source orders h horders]

theorem claim_C10_witness :
    (∀ o ∈ [exOrder], o.restaurant.id ≠ exS.id ∧ o.customer.id ≠ exS.id) ∧
    find_best_route exDist exTimeEst exS [exOrder] =
      best_route exDist exTimeEst exS [exOrder] :=
  ⟨by decide, claim_C10 exDist exTimeEst exS [exOrder] (by decide)⟩
